import Mathlib

/-!
Shallow embedding of the Vault policy privilege-escalation checker
(component `EscalationPolicyChecker`): the path-to-regex compiler
`buildRegexFromPath`, the rule priority oracle `comparePathPriority`,
the policy formula builder `buildPolicyMatch` /
`buildCapabilitiesMatch`, and the escalation solver
`checkPrivilegeEscalation`.  Z3 regular expressions are modelled by an
inductive regex type with Brzozowski-derivative matching; the Z3
boolean AST over the two free string constants `path` and `cap` is
modelled by the inductive type `Fm` with an evaluation function; the
solver itself is abstracted as an oracle returning a three-valued
verdict, with soundness stated as a hypothesis where needed.
-/

namespace PolicyCheck

/-- Regex AST covering exactly the Z3 regular-expression constructors used by
the source: `mk_re_range`, `mk_seq_to_re` (string literal), `mk_re_union`,
`mk_re_concat`, `mk_re_star`, `mk_re_plus`.  `emp` is the empty language
(used as the unit of an empty union). -/
inductive RE where
  | emp : RE
  | str (s : List Char) : RE
  | range (lo hi : Char) : RE
  | union (a b : RE) : RE
  | concat (a b : RE) : RE
  | star (r : RE) : RE
  | plus (r : RE) : RE
deriving DecidableEq

/-- Z3's n-ary `mk_re_union` modelled as a fold of binary unions. -/
def mkUnion : List RE → RE
  | [] => .emp
  | r :: rs => rs.foldl RE.union r

/-- Z3's n-ary `mk_re_concat` modelled as a fold of binary concatenations. -/
def mkConcatRE : List RE → RE
  | [] => .str []
  | r :: rs => rs.foldl RE.concat r

/-- Nullability: whether the regex accepts the empty string. -/
def nullable : RE → Bool
  | .emp => false
  | .str s => s.isEmpty
  | .range _ _ => false
  | .union a b => nullable a || nullable b
  | .concat a b => nullable a && nullable b
  | .star _ => true
  | .plus r => nullable r

/-- Brzozowski derivative of a regex by one character. -/
def derivRE : RE → Char → RE
  | .emp, _ => .emp
  | .str [], _ => .emp
  | .str (x :: xs), c => if x = c then .str xs else .emp
  | .range lo hi, c => if lo ≤ c ∧ c ≤ hi then .str [] else .emp
  | .union a b, c => .union (derivRE a c) (derivRE b c)
  | .concat a b, c =>
      if nullable a then .union (.concat (derivRE a c) b) (derivRE b c)
      else .concat (derivRE a c) b
  | .star r, c => .concat (derivRE r c) (.star r)
  | .plus r, c => .concat (derivRE r c) (.star r)

/-- Regex membership (the semantics of Z3's `mk_seq_in_re`), decided by
iterated derivatives. -/
def reMatch (r : RE) (s : List Char) : Bool := nullable (s.foldl derivRE r)

/-- The literal alphabet of the `wildcardRanges` helper in the source:
lowercase, uppercase, digits, `-`, `_`, `.` (note: no `/`). -/
def wildcardRanges : List RE :=
  [.range 'a' 'z', .range 'A' 'Z', .range '0' '9',
   .str ['-'], .str ['_'], .str ['.']]

/-- Tokens produced by the source's split of a path pattern on the regex
`([+]|\*$)`: a literal run, a `+` occurring anywhere, or a `*` occurring as
the final character only. -/
inductive Tok where
  | lit (s : List Char)
  | plusTok
  | starTok
deriving DecidableEq

/-- Flush the (reversed) pending literal accumulator in front of a token
list; an empty literal is dropped, matching the source's falsy-part skip. -/
def flushAcc (acc : List Char) (rest : List Tok) : List Tok :=
  match acc with
  | [] => rest
  | _ => .lit acc.reverse :: rest

/-- Faithful model of `path.split(/([+]|\*$)/)` followed by the per-part
dispatch: every `+` is a wildcard token, a `*` is a wildcard token only in
final position, all other characters extend the current literal. -/
def splitTokens (acc : List Char) : List Char → List Tok
  | [] => flushAcc acc []
  | '+' :: rest => flushAcc acc (.plusTok :: splitTokens [] rest)
  | ['*'] => flushAcc acc [.starTok]
  | c :: rest => splitTokens (c :: acc) rest

/-- Regex fragment for a single token, as built in the loop of
`buildRegexFromPath`: trailing `*` star-closes the alphabet extended with
`/`; `+` plus-closes the alphabet without `/`; a literal maps to itself. -/
def tokToRE : Tok → RE
  | .lit s => .str s
  | .starTok => .star (mkUnion (wildcardRanges ++ [.str ['/']]))
  | .plusTok => .plus (mkUnion wildcardRanges)

/-- Model of `buildRegexFromPath`.  On an empty pattern the source indexes
`reParts[0]` of an empty array, yielding JavaScript `undefined`; this is
modelled as `none`. -/
def buildRegexFromPath (path : String) : Option RE :=
  let reParts := (splitTokens [] path.data).map tokToRE
  match reParts with
  | [] => none
  | [r] => some r
  | _ => some (mkConcatRE reParts)

/-- Boolean formula AST over the two free string constants `path` and `cap`,
covering the Z3 constructors used by the source: `mk_false`, `mk_seq_in_re`
applied to the `path` constant, `mk_eq` of the `cap` constant with a string
literal, `mk_or`, `mk_and`, `mk_not`, `mk_ite`. -/
inductive Fm where
  | fls : Fm
  | inRe (r : Option RE) : Fm
  | eqCap (c : String) : Fm
  | orF (a b : Fm) : Fm
  | andF (a b : Fm) : Fm
  | notF (f : Fm) : Fm
  | iteF (c t e : Fm) : Fm
deriving DecidableEq

/-- Z3's n-ary `mk_or` modelled as a fold of binary disjunctions; Z3 returns
`false` for an empty disjunction. -/
def mkOr : List Fm → Fm
  | [] => .fls
  | f :: fs => fs.foldl Fm.orF f

/-- Membership of a path in a compiled regex.  The `none` case is a
totalization: in the source an empty pattern makes `buildRegexFromPath`
return JavaScript `undefined`, which is then passed into `mk_seq_in_re` and
throws at the Z3 boundary, so the check aborts before `solver_check`.  The
model evaluates that case as non-matching instead; statements about the
solver being invoked are therefore restricted to rule sets whose every
pattern compiles (`(buildRegexFromPath p).isSome`), i.e. is nonempty. -/
def evalRE (r? : Option RE) (s : String) : Bool :=
  match r? with
  | some r => reMatch r s.data
  | none => false

/-- Evaluation of a formula at an assignment of the free constants. -/
def evalFm (path cap : String) : Fm → Bool
  | .fls => false
  | .inRe r => evalRE r path
  | .eqCap c => cap = c
  | .orF a b => evalFm path cap a || evalFm path cap b
  | .andF a b => evalFm path cap a && evalFm path cap b
  | .notF f => !evalFm path cap f
  | .iteF c t e => if evalFm path cap c then evalFm path cap t else evalFm path cap e

/-- Model of `path.indexOf(c)` restricted to found/not-found. -/
def jsIndexOf (c : Char) (s : String) : Option Nat :=
  s.data.findIdx? (fun d => d = c)

/-- JavaScript `Math.min` over values that may be `Infinity`
(`none` stands for `Infinity`). -/
def minIdx : Option Nat → Option Nat → Option Nat
  | none, b => b
  | some a, none => some a
  | some a, some b => some (if a ≤ b then a else b)

/-- Position of the first `+` or `*` in a pattern, `none` when neither
occurs, as computed at the top of `comparePathPriority`. -/
def firstWildcard (p : String) : Option Nat :=
  minIdx (jsIndexOf '+' p) (jsIndexOf '*' p)

/-- JavaScript numbers as returned by `comparePathPriority`: an integer or
one of the two infinities (which arise from subtracting `Infinity`). -/
inductive ENum where
  | int (n : Int) : ENum
  | posInf : ENum
  | negInf : ENum
deriving DecidableEq

/-- Negation on `ENum`. -/
def ENum.neg : ENum → ENum
  | .int n => .int (-n)
  | .posInf => .negInf
  | .negInf => .posInf

/-- Sign of an `ENum`, in `{-1, 0, 1}`. -/
def ENum.sign : ENum → Int
  | .int n => if n < 0 then -1 else if 0 < n then 1 else 0
  | .posInf => 1
  | .negInf => -1

/-- Subtraction of extended first-wildcard positions (`none` = `Infinity`),
as in rule 1 of `comparePathPriority`.  The `none, none` case is unreachable
there (the branch requires the positions to differ). -/
def ewSub : Option Nat → Option Nat → ENum
  | some a, some b => .int ((a : Int) - (b : Int))
  | none, some _ => .posInf
  | some _, none => .negInf
  | none, none => .int 0

/-- Model of `path.endsWith(*)`. -/
def endsWithStar (p : String) : Bool := p.data.getLast? = some '*'

/-- Model of `(path.match(/\+/g) || []).length`. -/
def plusCount (p : String) : Nat := p.data.count '+'

/-- Strict lexicographic order on character lists, by codepoints. -/
def listLtB : List Char → List Char → Bool
  | [], [] => false
  | [], _ :: _ => true
  | _ :: _, [] => false
  | a :: as, b :: bs => if a < b then true else if b < a then false else listLtB as bs

/-- Model of `a.localeCompare(b)` under a codepoint collation: the sign of
the lexicographic comparison. -/
def localeCompare (a b : String) : Int :=
  if listLtB a.data b.data then -1 else if listLtB b.data a.data then 1 else 0

/-- Model of `comparePathPriority`: five sequential tie-breakers; positive
means the first pattern has higher priority. -/
def comparePathPriority (path1 path2 : String) : ENum :=
  let f1 := firstWildcard path1
  let f2 := firstWildcard path2
  if f1 ≠ f2 then ewSub f1 f2
  else if endsWithStar path1 ≠ endsWithStar path2 then
    (if endsWithStar path1 then .int (-1) else .int 1)
  else if plusCount path1 ≠ plusCount path2 then
    .int ((plusCount path2 : Int) - (plusCount path1 : Int))
  else if path1.length ≠ path2.length then
    .int ((path1.length : Int) - (path2.length : Int))
  else .int (localeCompare path2 path1)

/-- The order in which `Array.prototype.sort(comparePathPriority)` arranges
elements: `p` may precede `q` when the comparator is non-positive. -/
def pathLe (p q : String) : Bool := decide ((comparePathPriority p q).sign ≤ 0)

/-- The sort order as a relation, for use with the stable sort. -/
def pathRel (p q : String) : Prop := pathLe p q = true

instance : DecidableRel pathRel := fun p q => instDecidableEqBool (pathLe p q) true

/-- A parsed policy: the key-value pairs of the JavaScript rules object, in
insertion order (object keys are unique). -/
abbrev Rules := List (String × List String)

/-- Model of `Object.keys(rules)`. -/
def allPaths (rules : Rules) : List String := rules.map Prod.fst

/-- Model of the object lookup `rules[p]`. -/
def getCaps (rules : Rules) (p : String) : List String :=
  (rules.lookup p).getD []

/-- Model of `allPaths.filter(p => rules[p].includes(deny))`. -/
def denyPaths (rules : Rules) : List String :=
  (allPaths rules).filter (fun p => (getCaps rules p).contains "deny")

/-- The deny disjunction `isDenied` of `buildPolicyMatch`. -/
def isDenied (rules : Rules) : Fm :=
  mkOr ((denyPaths rules).map (fun p => .inRe (buildRegexFromPath p)))

/-- Model of `allPaths.filter(p => rules[p].some(c => c !== deny))`. -/
def allowPaths (rules : Rules) : List String :=
  (allPaths rules).filter (fun p => (getCaps rules p).any (fun c => c ≠ "deny"))

/-- Model of `allowPaths.sort(comparePathPriority)`: the ECMAScript stable
sort into ascending comparator order, modelled by insertion sort. -/
def sortedAllowPaths (rules : Rules) : List String :=
  List.insertionSort pathRel (allowPaths rules)

/-- Model of `buildCapabilitiesMatch`: the disjunction of equations
`cap = c` over the non-deny capabilities, or `false` when there are none. -/
def buildCapabilitiesMatch (capabilities : List String) : Fm :=
  let capMatches := (capabilities.filter (fun c => c ≠ "deny")).map Fm.eqCap
  if capMatches.isEmpty then .fls else mkOr capMatches

/-- One iteration of the allow loop: wrap the accumulated cascade in an
`ite` testing the current pattern. -/
def allowIte (rules : Rules) (p : String) (acc : Fm) : Fm :=
  .iteF (.inRe (buildRegexFromPath p)) (buildCapabilitiesMatch (getCaps rules p)) acc

/-- The allow cascade `isAllowed` of `buildPolicyMatch`: a left fold over the
ascending-priority sorted paths, so the outermost `ite` is built from the
last (highest-priority) element. -/
def isAllowed (rules : Rules) : Fm :=
  (sortedAllowPaths rules).foldl (fun acc p => allowIte rules p acc) .fls

/-- Model of `buildPolicyMatch`: granted iff allowed and not denied. -/
def buildPolicyMatch (rules : Rules) : Fm :=
  .andF (isAllowed rules) (.notF (isDenied rules))

/-- The three-valued verdict of `Z3.solver_check`. -/
inductive Lbool where
  | ltrue : Lbool
  | lfalse : Lbool
  | lundef : Lbool
deriving DecidableEq

/-- Abstraction of the Z3 solver: a verdict for an asserted formula and, for
the satisfiable case, the model values of the constants `path` and `cap`. -/
structure SolverOracle where
  check : Fm → Lbool
  modelPath : Fm → String
  modelCap : Fm → String

/-- The result record returned by `checkPrivilegeEscalation`; the two
formula fields model the textual `z3` diagnostics of the source. -/
structure PolicyCheckResult where
  result : Bool
  path : Option String
  capability : Option String
  z3Current : Fm
  z3New : Fm
deriving DecidableEq

/-- The formula asserted by `checkPrivilegeEscalation`:
`(not currentPolicy) and newPolicy`. -/
def escalationQuery (currentRules newRules : Rules) : Fm :=
  .andF (.notF (buildPolicyMatch currentRules)) (buildPolicyMatch newRules)

/-- Model of `checkPrivilegeEscalation`: build both policy formulas, assert
the escalation query, and branch on the solver verdict.  Only the
`Z3_L_TRUE` verdict produces a witness; every other verdict (including
`Z3_L_UNDEF`) falls into the source's `else` branch. -/
def checkPrivilegeEscalation (S : SolverOracle) (currentRules newRules : Rules) :
    PolicyCheckResult :=
  let currentPolicy := buildPolicyMatch currentRules
  let newPolicy := buildPolicyMatch newRules
  let asserted := Fm.andF (.notF currentPolicy) newPolicy
  match S.check asserted with
  | .ltrue =>
      ⟨true, some (S.modelPath asserted), some (S.modelCap asserted),
        currentPolicy, newPolicy⟩
  | _ => ⟨false, none, none, currentPolicy, newPolicy⟩

/-- A solver oracle is sound when a `Z3_L_TRUE` verdict comes with a model
that indeed satisfies the asserted formula. -/
def SolverSound (S : SolverOracle) : Prop :=
  ∀ f : Fm, S.check f = .ltrue → evalFm (S.modelPath f) (S.modelCap f) f = true

/-- Semantic satisfiability of a formula over the two free constants. -/
def Satisfiable (f : Fm) : Prop := ∃ path cap, evalFm path cap f = true

/-! ### Order theory for the priority comparator -/

theorem listLtB_irrefl (a : List Char) : listLtB a a = false := by
  induction a with
  | nil => rfl
  | cons x xs ih => simp [listLtB, ih]

theorem listLtB_asymm {a b : List Char} (h : listLtB a b = true) :
    listLtB b a = false := by
  induction a generalizing b with
  | nil =>
    cases b with
    | nil => simp [listLtB] at h
    | cons y ys => simp [listLtB]
  | cons x xs ih =>
    cases b with
    | nil => simp [listLtB] at h
    | cons y ys =>
      simp only [listLtB] at h ⊢
      rcases lt_trichotomy x y with hxy | hxy | hxy
      · simp [hxy, not_lt_of_gt hxy]
      · subst hxy
        simp only [lt_irrefl, if_false] at h ⊢
        exact ih h
      · simp [hxy, not_lt_of_gt hxy] at h

theorem listLtB_trans {a b c : List Char} (h1 : listLtB a b = true)
    (h2 : listLtB b c = true) : listLtB a c = true := by
  induction a generalizing b c with
  | nil =>
    cases c with
    | nil => cases b <;> simp [listLtB] at h1 h2
    | cons z zs => simp [listLtB]
  | cons x xs ih =>
    cases b with
    | nil => simp [listLtB] at h1
    | cons y ys =>
      cases c with
      | nil => simp [listLtB] at h2
      | cons z zs =>
        simp only [listLtB] at h1 h2 ⊢
        rcases lt_trichotomy x y with hxy | hxy | hxy
        · rcases lt_trichotomy y z with hyz | hyz | hyz
          · simp [lt_trans hxy hyz]
          · subst hyz; simp [hxy]
          · simp [hyz, not_lt_of_gt hyz] at h2
        · subst hxy
          simp only [lt_irrefl, if_false] at h1
          rcases lt_trichotomy x z with hyz | hyz | hyz
          · simp [hyz]
          · subst hyz
            simp only [lt_irrefl, if_false] at h2 ⊢
            exact ih h1 h2
          · simp [hyz, not_lt_of_gt hyz] at h2
        · simp [hxy, not_lt_of_gt hxy] at h1

theorem listLtB_eq_of_not {a b : List Char} (h1 : listLtB a b = false)
    (h2 : listLtB b a = false) : a = b := by
  induction a generalizing b with
  | nil => cases b <;> simp_all [listLtB]
  | cons x xs ih =>
    cases b with
    | nil => simp [listLtB] at h2
    | cons y ys =>
      simp only [listLtB] at h1 h2
      rcases lt_trichotomy x y with hxy | hxy | hxy
      · simp [hxy] at h1
      · subst hxy
        simp only [lt_irrefl, if_false] at h1 h2
        rw [ih h1 h2]
      · simp [hxy] at h2

theorem localeCompare_self (p : String) : localeCompare p p = 0 := by
  simp [localeCompare, listLtB_irrefl]

theorem localeCompare_swap (a b : String) :
    localeCompare a b = -localeCompare b a := by
  unfold localeCompare
  rcases hab : listLtB a.data b.data with _ | _ <;>
    rcases hba : listLtB b.data a.data with _ | _ <;> simp
  exact absurd hba (by simp [listLtB_asymm hab])

theorem ENum.neg_sign (e : ENum) : e.neg.sign = -e.sign := by
  cases e with
  | int n =>
    simp only [ENum.neg, ENum.sign]
    rcases lt_trichotomy n 0 with h | h | h <;>
      simp [h, not_lt_of_gt, h.le]
  | posInf => rfl
  | negInf => rfl

theorem ewSub_swap (a b : Option Nat) : ewSub a b = (ewSub b a).neg := by
  cases a <;> cases b <;> simp [ewSub, ENum.neg]

/-- Antisymmetry of the comparator: swapping the arguments negates the
result (also with the infinite values of rule 1). -/
theorem comparePathPriority_swap (p q : String) :
    comparePathPriority p q = (comparePathPriority q p).neg := by
  unfold comparePathPriority
  by_cases h1 : firstWildcard p = firstWildcard q
  · simp only [h1, ne_eq, not_true_eq_false, if_false, reduceIte]
    by_cases h2 : endsWithStar p = endsWithStar q
    · simp only [h2, not_true_eq_false, reduceIte]
      by_cases h3 : plusCount p = plusCount q
      · simp only [h3, not_true_eq_false, reduceIte]
        by_cases h4 : p.length = q.length
        · simp only [h4, not_true_eq_false, reduceIte]
          rw [localeCompare_swap q p]
          rfl
        · have h4s : q.length ≠ p.length := fun h => h4 h.symm
          simp only [h4, h4s, not_false_eq_true, reduceIte, ENum.neg]
          congr 1
          omega
      · have h3s : plusCount q ≠ plusCount p := fun h => h3 h.symm
        simp only [h3, h3s, not_false_eq_true, reduceIte, ENum.neg]
        congr 1
        omega
    · have h2s : endsWithStar q ≠ endsWithStar p := fun h => h2 h.symm
      simp only [h2, h2s, not_false_eq_true, reduceIte]
      rcases hp : endsWithStar p with _ | _ <;> rcases hq : endsWithStar q with _ | _ <;>
        simp_all [ENum.neg]
  · have h1s : firstWildcard q ≠ firstWildcard p := fun h => h1 h.symm
    simp only [h1, h1s, ne_eq, not_false_eq_true, reduceIte]
    exact ewSub_swap _ _

/-- Strict order on first-wildcard positions, `none` playing `Infinity`. -/
def fwLt : Option Nat → Option Nat → Prop
  | some x, some y => x < y
  | some _, none => True
  | none, _ => False

theorem fwLt_trans {a b c : Option Nat} (h1 : fwLt a b) (h2 : fwLt b c) :
    fwLt a c := by
  cases a <;> cases b <;> cases c <;> simp_all [fwLt]
  omega

theorem fwLt_irrefl (a : Option Nat) : ¬fwLt a a := by
  cases a <;> simp [fwLt]

/-- Rank of rule 2: a pattern that ends with a trailing `*` ranks below one
that does not. -/
def starRank (p : String) : Nat := if endsWithStar p then 0 else 1

/-- Lexicographic combination of a strict level, its tie predicate, and the
remaining levels. -/
def lexLt (l e R : String → String → Prop) (p q : String) : Prop :=
  l p q ∨ (e p q ∧ R p q)

/-- Rule 5 as a strict order: lexicographically larger patterns rank
lower. -/
def priLt5 (p q : String) : Prop := listLtB q.data p.data = true

/-- Rules 4 and 5: shorter patterns rank lower. -/
def priLt4 : String → String → Prop :=
  lexLt (fun p q => p.length < q.length) (fun p q => p.length = q.length) priLt5

/-- Rules 3 to 5: patterns with more `+` occurrences rank lower. -/
def priLt3 : String → String → Prop :=
  lexLt (fun p q => plusCount q < plusCount p) (fun p q => plusCount p = plusCount q) priLt4

/-- Rules 2 to 5. -/
def priLt2 : String → String → Prop :=
  lexLt (fun p q => starRank p < starRank q) (fun p q => starRank p = starRank q) priLt3

/-- The full strict priority order induced by the five tie-breakers:
`priLt p q` states that `p` has strictly lower priority than `q`. -/
def priLt : String → String → Prop :=
  lexLt (fun p q => fwLt (firstWildcard p) (firstWildcard q))
    (fun p q => firstWildcard p = firstWildcard q) priLt2

theorem lexLt_trans {l e R : String → String → Prop}
    (hl : ∀ a b c, l a b → l b c → l a c)
    (hel : ∀ a b c, e a b → l b c → l a c)
    (hle : ∀ a b c, l a b → e b c → l a c)
    (he : ∀ a b c, e a b → e b c → e a c)
    (hR : ∀ a b c, R a b → R b c → R a c) :
    ∀ a b c, lexLt l e R a b → lexLt l e R b c → lexLt l e R a c := by
  rintro a b c (h1 | ⟨he1, hr1⟩) (h2 | ⟨he2, hr2⟩)
  · exact Or.inl (hl a b c h1 h2)
  · exact Or.inl (hle a b c h1 he2)
  · exact Or.inl (hel a b c he1 h2)
  · exact Or.inr ⟨he a b c he1 he2, hR a b c hr1 hr2⟩

theorem priLt_trans : ∀ a b c, priLt a b → priLt b c → priLt a c := by
  apply lexLt_trans
  · exact fun a b c h1 h2 => fwLt_trans h1 h2
  · exact fun a b c h1 h2 => h1 ▸ h2
  · exact fun a b c h1 h2 => h2 ▸ h1
  · exact fun a b c h1 h2 => h1.trans h2
  apply lexLt_trans
  · exact fun a b c h1 h2 => lt_trans h1 h2
  · exact fun a b c h1 h2 => h1 ▸ h2
  · exact fun a b c h1 h2 => h2 ▸ h1
  · exact fun a b c h1 h2 => h1.trans h2
  apply lexLt_trans
  · exact fun a b c h1 h2 => lt_trans h2 h1
  · exact fun a b c h1 h2 => h1 ▸ h2
  · exact fun a b c h1 h2 => h2 ▸ h1
  · exact fun a b c h1 h2 => h1.trans h2
  apply lexLt_trans
  · exact fun a b c h1 h2 => lt_trans h1 h2
  · exact fun a b c h1 h2 => h1 ▸ h2
  · exact fun a b c h1 h2 => h2 ▸ h1
  · exact fun a b c h1 h2 => h1.trans h2
  · exact fun a b c h1 h2 => listLtB_trans h2 h1

theorem ewSub_sign_neg_iff (a b : Option Nat) :
    ((ewSub a b).sign < 0) ↔ fwLt a b := by
  cases a <;> cases b <;> simp [ewSub, ENum.sign, fwLt]
  split_ifs <;> omega

theorem int_sign_zero {n : Int} (h : (ENum.int n).sign = 0) : n = 0 := by
  by_contra hne
  simp only [ENum.sign] at h
  rcases lt_trichotomy n 0 with hlt | heq | hgt
  · rw [if_pos hlt] at h
    exact absurd h (by decide)
  · exact hne heq
  · rw [if_neg (by omega), if_pos hgt] at h
    exact absurd h (by decide)

theorem ewSub_sign_ne_zero {a b : Option Nat} (h : a ≠ b) :
    (ewSub a b).sign ≠ 0 := by
  cases a <;> cases b
  · exact absurd rfl h
  · simp [ewSub, ENum.sign]
  · simp [ewSub, ENum.sign]
  · rename_i x y
    have hxy : x ≠ y := by
      rintro rfl
      exact h rfl
    simp only [ewSub, ENum.sign]
    split_ifs with h1 h2 <;> omega

theorem localeCompare_neg_iff {a b : String} :
    localeCompare a b < 0 ↔ listLtB a.data b.data = true := by
  unfold localeCompare
  rcases h1 : listLtB a.data b.data with _ | _ <;>
    rcases h2 : listLtB b.data a.data with _ | _ <;> simp

theorem localeCompare_zero_iff {a b : String} :
    localeCompare a b = 0 ↔ a = b := by
  constructor
  · intro h
    unfold localeCompare at h
    rcases h1 : listLtB a.data b.data with _ | _ <;>
      rcases h2 : listLtB b.data a.data with _ | _ <;>
        rw [h1, h2] at h <;> simp at h
    exact String.ext (listLtB_eq_of_not h1 h2)
  · intro h
    subst h
    exact localeCompare_self a

/-- The comparator's sign is negative exactly when the first pattern has
strictly lower priority in the lexicographic five-level order. -/
theorem comparePathPriority_sign_neg_iff (p q : String) :
    (comparePathPriority p q).sign < 0 ↔ priLt p q := by
  unfold comparePathPriority
  by_cases h1 : firstWildcard p = firstWildcard q
  · have hR : priLt p q ↔ priLt2 p q := by
      unfold priLt lexLt
      constructor
      · rintro (h | ⟨_, h⟩)
        · rw [h1] at h
          exact absurd h (fwLt_irrefl _)
        · exact h
      · exact fun h => Or.inr ⟨h1, h⟩
    rw [hR]
    simp only [h1, ne_eq, not_true_eq_false, reduceIte]
    by_cases h2 : endsWithStar p = endsWithStar q
    · have hsr : starRank p = starRank q := by unfold starRank; rw [h2]
      have hR2 : priLt2 p q ↔ priLt3 p q := by
        unfold priLt2 lexLt
        constructor
        · rintro (h | ⟨_, h⟩)
          · rw [hsr] at h
            exact absurd h (lt_irrefl _)
          · exact h
        · exact fun h => Or.inr ⟨hsr, h⟩
      rw [hR2]
      simp only [h2, not_true_eq_false, reduceIte]
      by_cases h3 : plusCount p = plusCount q
      · have hR3 : priLt3 p q ↔ priLt4 p q := by
          unfold priLt3 lexLt
          constructor
          · rintro (h | ⟨_, h⟩)
            · rw [h3] at h
              exact absurd h (lt_irrefl _)
            · exact h
          · exact fun h => Or.inr ⟨h3, h⟩
        rw [hR3]
        simp only [h3, not_true_eq_false, reduceIte]
        by_cases h4 : p.length = q.length
        · have hR4 : priLt4 p q ↔ priLt5 p q := by
            unfold priLt4 lexLt
            constructor
            · rintro (h | ⟨_, h⟩)
              · rw [h4] at h
                exact absurd h (lt_irrefl _)
              · exact h
            · exact fun h => Or.inr ⟨h4, h⟩
          rw [hR4]
          simp only [h4, not_true_eq_false, reduceIte]
          unfold priLt5
          rw [show ∀ n : Int, (ENum.int n).sign < 0 ↔ n < 0 by
                intro n
                simp only [ENum.sign]
                split_ifs with ha hb <;> omega]
          exact localeCompare_neg_iff
        · simp only [h4, not_false_eq_true, reduceIte]
          unfold priLt4 lexLt
          have hno : ¬(p.length = q.length ∧ priLt5 p q) := fun h => h4 h.1
          simp only [hno, or_false, ENum.sign]
          split_ifs with ha hb <;> omega
      · simp only [h3, not_false_eq_true, reduceIte]
        unfold priLt3 lexLt
        have hno : ¬(plusCount p = plusCount q ∧ priLt4 p q) := fun h => h3 h.1
        simp only [hno, or_false, ENum.sign]
        split_ifs with ha hb <;> omega
    · simp only [h2, not_false_eq_true, reduceIte]
      unfold priLt2 lexLt starRank
      have hno : ¬(starRank p = starRank q ∧ priLt3 p q) := by
        rintro ⟨he, _⟩
        unfold starRank at he
        rcases hp : endsWithStar p with _ | _ <;> rcases hq : endsWithStar q with _ | _ <;>
          simp_all
      unfold starRank at hno
      rcases hp : endsWithStar p with _ | _ <;> rcases hq : endsWithStar q with _ | _ <;>
        simp_all [ENum.sign]
  · simp only [h1, ne_eq, not_false_eq_true, reduceIte]
    rw [ewSub_sign_neg_iff]
    unfold priLt lexLt
    constructor
    · exact fun h => Or.inl h
    · rintro (h | ⟨he, _⟩)
      · exact h
      · exact absurd he h1

/-- The comparator's sign is zero exactly on equal patterns. -/
theorem comparePathPriority_sign_zero_iff (p q : String) :
    (comparePathPriority p q).sign = 0 ↔ p = q := by
  unfold comparePathPriority
  by_cases h1 : firstWildcard p = firstWildcard q
  · simp only [h1, ne_eq, not_true_eq_false, reduceIte]
    by_cases h2 : endsWithStar p = endsWithStar q
    · simp only [h2, not_true_eq_false, reduceIte]
      by_cases h3 : plusCount p = plusCount q
      · simp only [h3, not_true_eq_false, reduceIte]
        by_cases h4 : p.length = q.length
        · simp only [h4, not_true_eq_false, reduceIte]
          rw [show ∀ n : Int, (ENum.int n).sign = 0 ↔ n = 0
              from fun n =>
                ⟨int_sign_zero, by
                  rintro rfl
                  rfl⟩]
          rw [show localeCompare q p = 0 ↔ q = p from localeCompare_zero_iff]
          exact ⟨fun h => h.symm, fun h => h.symm⟩
        · simp only [h4, not_false_eq_true, reduceIte]
          constructor
          · intro h
            have hz := int_sign_zero h
            exact absurd (show p.length = q.length by omega) h4
          · intro h
            subst h
            exact absurd rfl h4
      · simp only [h3, not_false_eq_true, reduceIte]
        constructor
        · intro h
          have hz := int_sign_zero h
          exact absurd (show plusCount p = plusCount q by omega) h3
        · intro h
          subst h
          exact absurd rfl h3
    · simp only [h2, not_false_eq_true, reduceIte]
      constructor
      · intro h
        rcases hp : endsWithStar p with _ | _ <;> rw [hp] at h <;>
          simp [ENum.sign] at h
      · intro h
        subst h
        exact absurd rfl h2
  · simp only [h1, ne_eq, not_false_eq_true, reduceIte]
    constructor
    · intro h
      exact absurd h (ewSub_sign_ne_zero h1)
    · intro h
      subst h
      exact absurd rfl h1

/-- Swapping the arguments negates the comparator's sign. -/
theorem comparePathPriority_sign_swap (p q : String) :
    (comparePathPriority q p).sign = -(comparePathPriority p q).sign := by
  rw [comparePathPriority_swap p q, ENum.neg_sign]
  omega

theorem pathRel_iff {p q : String} :
    pathRel p q ↔ (comparePathPriority p q).sign ≤ 0 := by
  simp [pathRel, pathLe]

theorem sign_le_zero_cases {p q : String}
    (h : (comparePathPriority p q).sign ≤ 0) : priLt p q ∨ p = q := by
  rcases lt_or_eq_of_le h with h | h
  · exact Or.inl ((comparePathPriority_sign_neg_iff p q).mp h)
  · exact Or.inr ((comparePathPriority_sign_zero_iff p q).mp h)

instance : IsTrans String pathRel := by
  constructor
  intro a b c hab hbc
  rw [pathRel_iff] at hab hbc ⊢
  rcases sign_le_zero_cases hab with h1 | h1
  · rcases sign_le_zero_cases hbc with h2 | h2
    · exact le_of_lt ((comparePathPriority_sign_neg_iff a c).mpr (priLt_trans a b c h1 h2))
    · rw [← h2]
      exact le_of_lt ((comparePathPriority_sign_neg_iff a b).mpr h1)
  · rw [h1]
    exact hbc

instance : IsTotal String pathRel := by
  constructor
  intro a b
  rw [pathRel_iff, pathRel_iff, comparePathPriority_sign_swap a b]
  omega

instance : IsAntisymm String pathRel := by
  constructor
  intro a b hab hba
  rw [pathRel_iff] at hab hba
  rw [comparePathPriority_sign_swap a b] at hba
  exact (comparePathPriority_sign_zero_iff a b).mp (by omega)

/-! ### Evaluation lemmas for the formula builders -/

theorem evalFm_foldl_orF (path cap : String) (f : Fm) (fs : List Fm) :
    evalFm path cap (fs.foldl Fm.orF f)
      = (evalFm path cap f || fs.any (evalFm path cap)) := by
  induction fs generalizing f with
  | nil => simp
  | cons g gs ih =>
    simp only [List.foldl_cons, List.any_cons, ih, evalFm]
    rw [Bool.or_assoc]

theorem evalFm_mkOr (path cap : String) (l : List Fm) :
    evalFm path cap (mkOr l) = l.any (evalFm path cap) := by
  cases l with
  | nil => rfl
  | cons f fs => simp [mkOr, evalFm_foldl_orF]

theorem evalFm_isDenied (rules : Rules) (path cap : String) :
    evalFm path cap (isDenied rules)
      = (denyPaths rules).any (fun p => evalRE (buildRegexFromPath p) path) := by
  unfold isDenied
  rw [evalFm_mkOr]
  generalize denyPaths rules = L
  induction L with
  | nil => rfl
  | cons a L ih => simp only [List.map_cons, List.any_cons, ih, evalFm]

theorem evalFm_allowIte (rules : Rules) (p : String) (acc : Fm)
    (path cap : String) :
    evalFm path cap (allowIte rules p acc)
      = (if evalRE (buildRegexFromPath p) path = true
          then evalFm path cap (buildCapabilitiesMatch (getCaps rules p))
          else evalFm path cap acc) := rfl

/-- Evaluating the allow fold over any path list: the first pattern of the
reversed list whose regex matches the path dictates the capability test. -/
theorem evalFm_allowFold (rules : Rules) (path cap : String) (l : List String) :
    evalFm path cap (l.foldl (fun acc p => allowIte rules p acc) .fls)
      = (match l.reverse.find? (fun p => evalRE (buildRegexFromPath p) path) with
         | some p => evalFm path cap (buildCapabilitiesMatch (getCaps rules p))
         | none => false) := by
  induction l using List.reverseRecOn with
  | nil => rfl
  | append_singleton l x ih =>
    rw [List.foldl_append]
    simp only [List.foldl_cons, List.foldl_nil, List.reverse_append,
      List.reverse_cons, List.reverse_nil, List.nil_append, List.cons_append]
    rw [evalFm_allowIte]
    rcases hx : evalRE (buildRegexFromPath x) path with _ | _
    · rw [if_neg (by simp [hx]), ih,
        List.find?_cons_of_neg _ (by simp [hx])]
    · rw [if_pos (by simp [hx]),
        List.find?_cons_of_pos _ (by simp [hx])]

/-- In a descending-priority list, the first element satisfying a predicate
is the strict maximum among the satisfying elements. -/
theorem find?_of_desc (pred : String → Bool) {L : List String} {pm : String}
    (hdesc : L.Pairwise (fun a b => pathRel b a))
    (hmem : pm ∈ L) (hpred : pred pm = true)
    (hmax : ∀ q ∈ L, pred q = true → q ≠ pm →
      (comparePathPriority q pm).sign < 0) :
    L.find? pred = some pm := by
  induction L with
  | nil => cases hmem
  | cons a L ih =>
    rw [List.pairwise_cons] at hdesc
    obtain ⟨ha, htl⟩ := hdesc
    by_cases hpa : pred a = true
    · have heq : a = pm := by
        by_contra hne
        have hmemL : pm ∈ L := by
          rcases List.mem_cons.mp hmem with h | h
          · exact absurd h.symm hne
          · exact h
        have hlow := hmax a (List.mem_cons_self a L) hpa hne
        have hrel : pathRel pm a := ha pm hmemL
        rw [pathRel_iff, comparePathPriority_sign_swap a pm] at hrel
        omega
      rw [List.find?_cons_of_pos _ hpa, heq]
    · have hne : pm ≠ a := fun h => hpa (h ▸ hpred)
      have hmemL : pm ∈ L := by
        rcases List.mem_cons.mp hmem with h | h
        · exact absurd h hne
        · exact h
      rw [List.find?_cons_of_neg _ hpa]
      exact ih htl hmemL
        (fun q hq hpq hqne => hmax q (List.mem_cons_of_mem a hq) hpq hqne)

/-- In a descending-priority list, the strict maximum is the head. -/
theorem head_of_desc {L : List String} {pm : String}
    (hdesc : L.Pairwise (fun a b => pathRel b a))
    (hmem : pm ∈ L)
    (hmax : ∀ q ∈ L, q ≠ pm → (comparePathPriority q pm).sign < 0) :
    ∃ t, L = pm :: t := by
  cases L with
  | nil => cases hmem
  | cons a L =>
    rw [List.pairwise_cons] at hdesc
    obtain ⟨ha, _⟩ := hdesc
    have heq : a = pm := by
      by_contra hne
      have hmemL : pm ∈ L := by
        rcases List.mem_cons.mp hmem with h | h
        · exact absurd h.symm hne
        · exact h
      have hlow := hmax a (List.mem_cons_self a L) hne
      have hrel : pathRel pm a := ha pm hmemL
      rw [pathRel_iff, comparePathPriority_sign_swap a pm] at hrel
      omega
    exact ⟨L, by rw [heq]⟩

theorem sortedAllowPaths_reverse_desc (rules : Rules) :
    (sortedAllowPaths rules).reverse.Pairwise (fun a b => pathRel b a) := by
  rw [List.pairwise_reverse]
  exact List.sorted_insertionSort pathRel (allowPaths rules)

theorem mem_sortedAllowPaths {rules : Rules} {pm : String} :
    pm ∈ sortedAllowPaths rules ↔ pm ∈ allowPaths rules :=
  (List.perm_insertionSort pathRel (allowPaths rules)).mem_iff

/-- Evaluation of the allow cascade at a path whose strict highest-priority
matching allow pattern is `pm`: the cascade returns exactly the capability
test of `pm`. -/
theorem evalFm_isAllowed_eq (rules : Rules) (path cap : String) (pm : String)
    (hmem : pm ∈ allowPaths rules)
    (hmatch : evalRE (buildRegexFromPath pm) path = true)
    (hmax : ∀ q ∈ allowPaths rules, evalRE (buildRegexFromPath q) path = true →
      q ≠ pm → (comparePathPriority q pm).sign < 0) :
    evalFm path cap (isAllowed rules)
      = evalFm path cap (buildCapabilitiesMatch (getCaps rules pm)) := by
  unfold isAllowed
  rw [evalFm_allowFold,
    find?_of_desc (fun p => evalRE (buildRegexFromPath p) path)
      (sortedAllowPaths_reverse_desc rules)
      (by rw [List.mem_reverse, mem_sortedAllowPaths]; exact hmem)
      hmatch
      (fun q hq hpq hqne =>
        hmax q (mem_sortedAllowPaths.mp (List.mem_reverse.mp hq)) hpq hqne)]

/-- When a strict highest-priority allow pattern `pm` exists, the allow
cascade is an `ite` whose outermost test is the pattern of `pm`. -/
theorem isAllowed_structure (rules : Rules) (pm : String)
    (hmem : pm ∈ allowPaths rules)
    (hmax : ∀ q ∈ allowPaths rules, q ≠ pm →
      (comparePathPriority q pm).sign < 0) :
    ∃ rest, isAllowed rules
      = Fm.iteF (.inRe (buildRegexFromPath pm))
          (buildCapabilitiesMatch (getCaps rules pm)) rest := by
  obtain ⟨t, ht⟩ := head_of_desc (sortedAllowPaths_reverse_desc rules)
    (by rw [List.mem_reverse, mem_sortedAllowPaths]; exact hmem)
    (fun q hq hqne =>
      hmax q (mem_sortedAllowPaths.mp (List.mem_reverse.mp hq)) hqne)
  have hs : sortedAllowPaths rules = t.reverse ++ [pm] := by
    have h2 := congrArg List.reverse ht
    rw [List.reverse_reverse] at h2
    simpa using h2
  refine ⟨t.reverse.foldl (fun acc p => allowIte rules p acc) .fls, ?_⟩
  unfold isAllowed
  rw [hs, List.foldl_append]
  rfl

/-! ### Insertion-order independence infrastructure -/

theorem any_perm {l₁ l₂ : List String} (h : l₁.Perm l₂) (p : String → Bool) :
    l₁.any p = l₂.any p := by
  rw [List.any_eq, List.any_eq, decide_eq_decide]
  constructor
  · rintro ⟨x, hx, hpx⟩
    exact ⟨x, h.mem_iff.mp hx, hpx⟩
  · rintro ⟨x, hx, hpx⟩
    exact ⟨x, h.mem_iff.mpr hx, hpx⟩

theorem lookup_eq_of_perm :
    ∀ {l₁ l₂ : Rules}, l₁.Perm l₂ → (l₁.map Prod.fst).Nodup →
      ∀ a, l₁.lookup a = l₂.lookup a := by
  intro l₁ l₂ hp
  induction hp with
  | nil =>
    intro _ a
    rfl
  | cons x h ih =>
    intro hn a
    obtain ⟨k, v⟩ := x
    rw [List.lookup_cons, List.lookup_cons]
    cases hak : a == k with
    | true => rfl
    | false => exact ih (by simpa using (List.nodup_cons.mp (by simpa using hn)).2) a
  | swap x y l =>
    intro hn a
    obtain ⟨k1, v1⟩ := x
    obtain ⟨k2, v2⟩ := y
    have hkk : k2 ≠ k1 := by
      simp only [List.map_cons, List.nodup_cons, List.mem_cons] at hn
      exact fun h => hn.1 (Or.inl h)
    rw [List.lookup_cons, List.lookup_cons, List.lookup_cons, List.lookup_cons]
    cases hak2 : a == k2 with
    | true =>
      have ha2 : a = k2 := by simpa using hak2
      have hak1 : (a == k1) = false := by
        simp [ha2, hkk]
      rw [hak1]
    | false =>
      cases hak1 : a == k1 with
      | true => rfl
      | false => rfl
  | trans h12 h23 ih12 ih23 =>
    intro hn a
    rw [ih12 hn a, ih23 ((h12.map Prod.fst).nodup_iff.mp hn) a]

theorem getCaps_eq_of_perm {l₁ l₂ : Rules} (hp : l₁.Perm l₂)
    (hn : (l₁.map Prod.fst).Nodup) (q : String) :
    getCaps l₁ q = getCaps l₂ q := by
  unfold getCaps
  rw [lookup_eq_of_perm hp hn q]

theorem denyPaths_perm {l₁ l₂ : Rules} (hp : l₁.Perm l₂)
    (hn : (l₁.map Prod.fst).Nodup) :
    (denyPaths l₁).Perm (denyPaths l₂) := by
  unfold denyPaths
  have hf : (fun p => (getCaps l₁ p).contains "deny")
      = (fun p => (getCaps l₂ p).contains "deny") :=
    funext fun p => by rw [getCaps_eq_of_perm hp hn p]
  rw [hf]
  exact (hp.map Prod.fst).filter _

theorem allowPaths_perm {l₁ l₂ : Rules} (hp : l₁.Perm l₂)
    (hn : (l₁.map Prod.fst).Nodup) :
    (allowPaths l₁).Perm (allowPaths l₂) := by
  unfold allowPaths
  have hf : (fun p => (getCaps l₁ p).any (fun c => c ≠ "deny"))
      = (fun p => (getCaps l₂ p).any (fun c => c ≠ "deny")) :=
    funext fun p => by rw [getCaps_eq_of_perm hp hn p]
  rw [hf]
  exact (hp.map Prod.fst).filter _

theorem sortedAllowPaths_eq_of_perm {l₁ l₂ : Rules} (hp : l₁.Perm l₂)
    (hn : (l₁.map Prod.fst).Nodup) :
    sortedAllowPaths l₁ = sortedAllowPaths l₂ := by
  exact List.eq_of_perm_of_sorted
    ((List.perm_insertionSort pathRel (allowPaths l₁)).trans
      ((allowPaths_perm hp hn).trans
        (List.perm_insertionSort pathRel (allowPaths l₂)).symm))
    (List.sorted_insertionSort pathRel (allowPaths l₁))
    (List.sorted_insertionSort pathRel (allowPaths l₂))

theorem foldl_allowIte_congr {r1 r2 : Rules} {l : List String}
    (h : ∀ q ∈ l, getCaps r1 q = getCaps r2 q) (b : Fm) :
    l.foldl (fun acc p => allowIte r1 p acc) b
      = l.foldl (fun acc p => allowIte r2 p acc) b := by
  induction l generalizing b with
  | nil => rfl
  | cons a l ih =>
    simp only [List.foldl_cons]
    rw [show allowIte r1 a b = allowIte r2 a b by
          unfold allowIte
          rw [h a (List.mem_cons_self a l)]]
    exact ih (fun q hq => h q (List.mem_cons_of_mem a hq)) _

theorem isAllowed_eq_of_perm {l₁ l₂ : Rules} (hp : l₁.Perm l₂)
    (hn : (l₁.map Prod.fst).Nodup) :
    isAllowed l₁ = isAllowed l₂ := by
  unfold isAllowed
  rw [sortedAllowPaths_eq_of_perm hp hn]
  exact foldl_allowIte_congr
    (fun q _ => getCaps_eq_of_perm hp hn q) _

theorem evalFm_buildPolicyMatch_of_perm {l₁ l₂ : Rules} (hp : l₁.Perm l₂)
    (hn : (l₁.map Prod.fst).Nodup) (path cap : String) :
    evalFm path cap (buildPolicyMatch l₁) = evalFm path cap (buildPolicyMatch l₂) := by
  unfold buildPolicyMatch
  simp only [evalFm]
  rw [isAllowed_eq_of_perm hp hn, evalFm_isDenied, evalFm_isDenied,
    any_perm (denyPaths_perm hp hn)]

/-! ### Removal of a rule with an empty capability list -/

theorem getCaps_middle {l₁ l₂ : Rules} {p : String}
    (hp1 : p ∉ l₁.map Prod.fst) :
    getCaps (l₁ ++ (p, ([] : List String)) :: l₂) p = [] := by
  unfold getCaps
  rw [List.lookup_append]
  have h1 : l₁.lookup p = none := by
    rw [List.lookup_eq_none_iff]
    intro x hx
    have hne : p ≠ x.1 := fun h => hp1 (by
      rw [h]
      exact List.mem_map_of_mem Prod.fst hx)
    simpa using hne
  rw [h1, Option.none_or, List.lookup_cons_self]
  rfl

theorem getCaps_skip_middle {l₁ l₂ : Rules} {p q : String} (hq : q ≠ p) :
    getCaps (l₁ ++ (p, ([] : List String)) :: l₂) q = getCaps (l₁ ++ l₂) q := by
  unfold getCaps
  rw [List.lookup_append, List.lookup_append, List.lookup_cons]
  have hqp : (q == p) = false := by simp [hq]
  rw [hqp]

/-- Dropping a rule with an empty capability list from anywhere in the map
leaves the built formula syntactically unchanged. -/
theorem buildPolicyMatch_drop_empty {l₁ l₂ : Rules} {p : String}
    (hp1 : p ∉ l₁.map Prod.fst) (hp2 : p ∉ l₂.map Prod.fst) :
    buildPolicyMatch (l₁ ++ (p, ([] : List String)) :: l₂)
      = buildPolicyMatch (l₁ ++ l₂) := by
  have hcap : ∀ q ∈ allPaths (l₁ ++ l₂),
      getCaps (l₁ ++ (p, ([] : List String)) :: l₂) q = getCaps (l₁ ++ l₂) q := by
    intro q hq
    apply getCaps_skip_middle
    intro hqp
    subst hqp
    unfold allPaths at hq
    rw [List.map_append, List.mem_append] at hq
    rcases hq with h | h
    · exact hp1 h
    · exact hp2 h
  have hall : allPaths (l₁ ++ (p, ([] : List String)) :: l₂)
      = l₁.map Prod.fst ++ p :: l₂.map Prod.fst := by
    unfold allPaths
    rw [List.map_append, List.map_cons]
  have hall2 : allPaths (l₁ ++ l₂) = l₁.map Prod.fst ++ l₂.map Prod.fst := by
    unfold allPaths
    rw [List.map_append]
  have hdeny : denyPaths (l₁ ++ (p, ([] : List String)) :: l₂)
      = denyPaths (l₁ ++ l₂) := by
    unfold denyPaths
    rw [hall, hall2, List.filter_append, List.filter_append, List.filter_cons]
    rw [show ((getCaps (l₁ ++ (p, ([] : List String)) :: l₂) p).contains "deny") = false by
          rw [getCaps_middle hp1]
          rfl]
    simp only [Bool.false_eq_true, if_false, reduceIte]
    congr 1
    · apply List.filter_congr
      intro q hq
      rw [hcap q (by rw [hall2, List.mem_append]; exact Or.inl hq)]
    · apply List.filter_congr
      intro q hq
      rw [hcap q (by rw [hall2, List.mem_append]; exact Or.inr hq)]
  have hallow : allowPaths (l₁ ++ (p, ([] : List String)) :: l₂)
      = allowPaths (l₁ ++ l₂) := by
    unfold allowPaths
    rw [hall, hall2, List.filter_append, List.filter_append, List.filter_cons]
    rw [show ((getCaps (l₁ ++ (p, ([] : List String)) :: l₂) p).any
          (fun c => c ≠ "deny")) = false by
          rw [getCaps_middle hp1]
          rfl]
    simp only [Bool.false_eq_true, if_false, reduceIte]
    congr 1
    · apply List.filter_congr
      intro q hq
      rw [hcap q (by rw [hall2, List.mem_append]; exact Or.inl hq)]
    · apply List.filter_congr
      intro q hq
      rw [hcap q (by rw [hall2, List.mem_append]; exact Or.inr hq)]
  unfold buildPolicyMatch
  have hsorted : sortedAllowPaths (l₁ ++ (p, ([] : List String)) :: l₂)
      = sortedAllowPaths (l₁ ++ l₂) := by
    unfold sortedAllowPaths
    rw [hallow]
  congr 1
  · unfold isAllowed
    rw [hsorted]
    apply foldl_allowIte_congr
    intro q hq
    apply hcap q
    have hq2 := mem_sortedAllowPaths.mp hq
    unfold allowPaths at hq2
    exact List.mem_of_mem_filter hq2
  · unfold isDenied
    rw [hdeny]

/-! ### Solver oracles and example policies -/

/-- An oracle that always answers unsatisfiable. -/
def solverUnsat : SolverOracle := ⟨fun _ => .lfalse, fun _ => "", fun _ => ""⟩

/-- An oracle that always answers unknown (timeout / resource limit). -/
def solverUnknown : SolverOracle := ⟨fun _ => .lundef, fun _ => "", fun _ => ""⟩

/-- An oracle that always answers satisfiable with a fixed (unchecked)
model. -/
def solverAffirm : SolverOracle := ⟨fun _ => .ltrue, fun _ => "m", fun _ => "c"⟩

/-- An oracle that proposes a fixed model and answers satisfiable exactly
when that model satisfies the asserted formula; it is sound by
construction. -/
def solverReturning (path cap : String) : SolverOracle :=
  ⟨fun f => if evalFm path cap f then .ltrue else .lundef,
   fun _ => path, fun _ => cap⟩

theorem solverUnsat_sound : SolverSound solverUnsat := fun _ hf =>
  Lbool.noConfusion hf

theorem solverUnknown_sound : SolverSound solverUnknown := fun _ hf =>
  Lbool.noConfusion hf

theorem solverReturning_sound (path cap : String) :
    SolverSound (solverReturning path cap) := by
  intro f hf
  simp only [solverReturning] at hf ⊢
  by_cases h : evalFm path cap f = true
  · exact h
  · rw [if_neg h] at hf
    exact Lbool.noConfusion hf

theorem comparePathPriority_self (p : String) :
    comparePathPriority p p = .int 0 := by
  unfold comparePathPriority
  simp [localeCompare_self]

theorem minIdx_findIdx? (pr q : Char → Bool) (l : List Char) :
    minIdx (l.findIdx? pr) (l.findIdx? q) = l.findIdx? (fun a => pr a || q a) := by
  induction l with
  | nil => rfl
  | cons a l ih =>
    simp only [List.findIdx?_cons, Nat.zero_add, List.findIdx?_start_succ]
    cases hp : pr a with
    | true =>
      cases hq : q a with
      | true =>
        simp only [hp, hq, Bool.true_or, reduceIte]
        rfl
      | false =>
        simp only [hp, hq, Bool.true_or, Bool.false_eq_true, if_false,
          reduceIte]
        cases l.findIdx? q with
        | none => rfl
        | some k => simp [minIdx, Nat.min_def]
    | false =>
      cases hq : q a with
      | true =>
        simp only [hp, hq, Bool.false_or, Bool.false_eq_true, if_false,
          reduceIte]
        cases l.findIdx? pr with
        | none => rfl
        | some k => simp [minIdx, Nat.min_def]
      | false =>
        simp only [hp, hq, Bool.false_or, Bool.false_eq_true, if_false,
          reduceIte]
        rw [← ih]
        cases l.findIdx? pr with
        | none =>
          cases l.findIdx? q with
          | none => rfl
          | some k => simp [minIdx]
        | some j =>
          cases l.findIdx? q with
          | none => simp [minIdx]
          | some k =>
            simp only [Option.map_some', minIdx, Option.some.injEq]
            split_ifs <;> omega

/-- The example pair of policies shown in the source's demo: the current
policy denies `secret/posts/admin`, the new policy grants `read` there. -/
def exampleCurrentRules : Rules :=
  [("secret/users", ["read"]), ("secret/posts/*", ["read", "write"]),
   ("secret/posts/admin", ["deny"])]

def exampleNewRules : Rules :=
  [("secret/users", ["read"]), ("secret/posts/*", ["read", "write"]),
   ("secret/posts/admin", ["read"])]

/-- Shadowing example: the literal pattern outranks the trailing-star
pattern on its own path. -/
def exampleShadowRules : Rules :=
  [("secret/app/*", ["read", "write"]), ("secret/app/db", ["read"])]

/-- Scenario 6 of the spec: segment-wildcard widening. -/
def segmentCurrentRules : Rules := [("secret/app/+", ["read"])]

def segmentNewRules : Rules := [("secret/app/*", ["read"])]

/-- A request the spec classifies as an input error: a rule with an empty
capability list. -/
def emptyCapsRules : Rules := [("a", [])]

/-- Two insertion orders of one two-rule deny mapping. -/
def denyOrderA : Rules := [("a", ["deny"]), ("b", ["deny"])]

def denyOrderB : Rules := [("b", ["deny"]), ("a", ["deny"])]

/-- Two insertion orders of one two-rule allow mapping. -/
def allowOrderA : Rules := [("x", ["read"]), ("y", ["write"])]

def allowOrderB : Rules := [("y", ["write"]), ("x", ["read"])]

/-- A policy with a deny rule and an allow rule both matching one path. -/
def denyWitnessRules : Rules := [("secret/*", ["read"]), ("secret/x", ["deny"])]

/-- Whether `s` contains a `/` after the prefix `pre`. -/
def slashAfter (pre s : String) : Bool :=
  (s.data.drop pre.data.length).contains '/'

/-- The branch on the solver verdict inside `checkPrivilegeEscalation`, made
explicit: the result is a function of the verdict on the asserted escalation
query alone. -/
theorem check_eq_match (S : SolverOracle) (cur new : Rules) :
    checkPrivilegeEscalation S cur new
      = (match S.check (escalationQuery cur new) with
         | Lbool.ltrue =>
             ⟨true, some (S.modelPath (escalationQuery cur new)),
               some (S.modelCap (escalationQuery cur new)),
               buildPolicyMatch cur, buildPolicyMatch new⟩
         | _ => ⟨false, none, none, buildPolicyMatch cur, buildPolicyMatch new⟩) :=
  rfl

theorem flushAcc_cons_ne_nil (acc : List Char) (t : Tok) (rest : List Tok) :
    flushAcc acc (t :: rest) ≠ [] := by
  cases acc <;> simp [flushAcc]

/-- The tokenizer returns at least one token unless both the accumulator and
the remaining input are empty. -/
theorem splitTokens_ne_nil : ∀ (l acc : List Char), acc ≠ [] ∨ l ≠ [] →
    splitTokens acc l ≠ [] := by
  intro l
  induction l with
  | nil =>
    intro acc h
    rcases h with h | h
    · cases acc with
      | nil => exact absurd rfl h
      | cons a as => simp [splitTokens, flushAcc]
    · exact absurd rfl h
  | cons c rest ih =>
    intro acc h
    rw [splitTokens.eq_def]
    split
    · simp [flushAcc]
      rename_i heq
      cases heq
    · exact flushAcc_cons_ne_nil _ _ _
    · exact flushAcc_cons_ne_nil _ _ _
    · rename_i c2 rest2 heq
      cases heq
      exact ih _ (Or.inl (by simp))

/-- Every nonempty pattern compiles to a regex; only the empty pattern
produces the source's `undefined` (`none`). -/
theorem buildRegexFromPath_isSome {p : String} (hp : p ≠ "") :
    (buildRegexFromPath p).isSome = true := by
  have hlist : p.data ≠ [] := by
    intro h
    exact hp (String.ext h)
  have h2 := splitTokens_ne_nil p.data [] (Or.inr hlist)
  unfold buildRegexFromPath
  rcases hL : splitTokens [] p.data with _ | ⟨t, ts⟩
  · exact absurd hL h2
  · simp only [hL, List.map_cons]
    cases ts with
    | nil => rfl
    | cons t2 ts2 => rfl

/-! ### The claims -/

/-- C1: the spec requires the solver's `unknown` verdict to surface as a
distinct `SolverUnknown` error, never as the no-escalation result.  The
source's `else` branch treats `Z3_L_UNDEF` exactly like `Z3_L_FALSE`: a
(vacuously sound) solver answering unknown yields a record identical to the
one produced by a solver answering unsatisfiable — `result = false` with a
null witness, the very shape the front-end renders as "No Privilege
Escalation Detected".  This contradicts the claim and the spec's own words,
so the code, not the claim, is wrong. -/
theorem unknown_verdict_indistinguishable_from_no_escalation :
    SolverSound solverUnknown
    ∧ checkPrivilegeEscalation solverUnknown exampleCurrentRules exampleNewRules
        = checkPrivilegeEscalation solverUnsat exampleCurrentRules exampleNewRules
    ∧ (checkPrivilegeEscalation solverUnknown exampleCurrentRules exampleNewRules).result
        = false
    ∧ (checkPrivilegeEscalation solverUnknown exampleCurrentRules exampleNewRules).path
        = none :=
  ⟨solverUnknown_sound, rfl, rfl, rfl⟩

/-- C2: a `deny` rule whose regex matches the path makes the policy formula
false at that path for every capability, regardless of any allow rule. -/
theorem deny_rule_vetoes_grant (rules : Rules) (p path cap : String)
    (hmem : p ∈ allPaths rules)
    (hdeny : (getCaps rules p).contains "deny" = true)
    (hmatch : evalRE (buildRegexFromPath p) path = true) :
    evalFm path cap (buildPolicyMatch rules) = false := by
  unfold buildPolicyMatch
  have hd : evalFm path cap (isDenied rules) = true := by
    rw [evalFm_isDenied]
    refine List.any_eq_true.mpr ⟨p, ?_, hmatch⟩
    unfold denyPaths
    exact List.mem_filter.mpr ⟨hmem, hdeny⟩
  simp only [evalFm, hd]
  simp

/-- Witness for C2: in a policy granting `read` on `secret/*` and denying
`secret/x`, the path `secret/x` is matched by both rules and the formula is
false for `read` there. -/
theorem deny_rule_vetoes_grant_witness :
    evalFm "secret/x" "read" (buildPolicyMatch denyWitnessRules) = false :=
  deny_rule_vetoes_grant denyWitnessRules "secret/x" "secret/x" "read"
    (by decide) (by decide) (by decide)

/-- C3: when a strict highest-priority allow pattern exists, the allow part
is an `ite` cascade whose outermost test is that pattern; and for every path
matched by at least one allow rule, the capability list of the strict
highest-priority matching pattern alone determines the cascade's value,
shadowing lower-priority matches. -/
theorem highest_priority_match_governs (rules : Rules) (pmax : String)
    (hmem : pmax ∈ allowPaths rules)
    (hmax : ∀ q ∈ allowPaths rules, q ≠ pmax →
      (comparePathPriority q pmax).sign < 0) :
    (∃ rest, isAllowed rules
        = Fm.iteF (.inRe (buildRegexFromPath pmax))
            (buildCapabilitiesMatch (getCaps rules pmax)) rest)
    ∧ ∀ path cap pm, pm ∈ allowPaths rules →
        evalRE (buildRegexFromPath pm) path = true →
        (∀ q ∈ allowPaths rules, evalRE (buildRegexFromPath q) path = true →
          q ≠ pm → (comparePathPriority q pm).sign < 0) →
        evalFm path cap (isAllowed rules)
          = evalFm path cap (buildCapabilitiesMatch (getCaps rules pm)) :=
  ⟨isAllowed_structure rules pmax hmem hmax,
    fun path cap pm h1 h2 h3 => evalFm_isAllowed_eq rules path cap pm h1 h2 h3⟩

/-- Witness for C3: with rules granting read and write on `secret/app/*` and
only read on `secret/app/db`, the literal pattern is the strict maximum; the
outermost `ite` tests it, and on path `secret/app/db` the wildcard rule's
`write` grant is shadowed. -/
theorem highest_priority_match_governs_witness :
    (∃ rest, isAllowed exampleShadowRules
        = Fm.iteF (.inRe (buildRegexFromPath "secret/app/db"))
            (buildCapabilitiesMatch (getCaps exampleShadowRules "secret/app/db"))
            rest)
    ∧ evalFm "secret/app/db" "write" (isAllowed exampleShadowRules) = false := by
  have h := highest_priority_match_governs exampleShadowRules "secret/app/db"
    (by decide) (by decide)
  refine ⟨h.1, ?_⟩
  rw [h.2 "secret/app/db" "write" "secret/app/db" (by decide) (by decide)
    (by decide)]
  decide

/-- C4: checking a policy against itself: the asserted query
`¬φ_P ∧ φ_P` evaluates to false at every assignment (it is unsatisfiable),
and with any sound solver the check returns the no-escalation record with
null witness fields. -/
theorem self_check_no_escalation (P : Rules) (S : SolverOracle)
    (hS : SolverSound S) :
    (∀ path cap, evalFm path cap (escalationQuery P P) = false)
    ∧ checkPrivilegeEscalation S P P
        = ⟨false, none, none, buildPolicyMatch P, buildPolicyMatch P⟩ := by
  have hunsat : ∀ path cap, evalFm path cap (escalationQuery P P) = false := by
    intro path cap
    show (!evalFm path cap (buildPolicyMatch P)
      && evalFm path cap (buildPolicyMatch P)) = false
    exact Bool.not_and_self _
  refine ⟨hunsat, ?_⟩
  rw [check_eq_match]
  cases hc : S.check (escalationQuery P P) with
  | ltrue =>
    have hsat := hS _ hc
    rw [hunsat] at hsat
    exact Bool.noConfusion hsat
  | lfalse => rfl
  | lundef => rfl

/-- Witness for C4: the demo's current policy checked against itself with
the always-unsatisfiable (sound) oracle. -/
theorem self_check_no_escalation_witness :
    evalFm "secret/posts/x" "read"
        (escalationQuery exampleCurrentRules exampleCurrentRules) = false
    ∧ checkPrivilegeEscalation solverUnsat exampleCurrentRules
        exampleCurrentRules
        = ⟨false, none, none, buildPolicyMatch exampleCurrentRules,
            buildPolicyMatch exampleCurrentRules⟩ := by
  have h := self_check_no_escalation exampleCurrentRules solverUnsat
    solverUnsat_sound
  exact ⟨h.1 "secret/posts/x" "read", h.2⟩

/-- Counterexample to C5 as stated: a sound solver may return the witness
path `secret/app/` (the `*` wildcard admits the empty suffix while `+`
demands at least one character), and that path contains no `/` after the
prefix `secret/app/` — so the returned witness path need not contain one. -/
theorem segment_widening_witness_counterexample :
    SolverSound (solverReturning "secret/app/" "read")
    ∧ (checkPrivilegeEscalation (solverReturning "secret/app/" "read")
        segmentCurrentRules segmentNewRules).result = true
    ∧ (checkPrivilegeEscalation (solverReturning "secret/app/" "read")
        segmentCurrentRules segmentNewRules).path = some "secret/app/"
    ∧ slashAfter "secret/app/" "secret/app/" = false := by
  exact ⟨solverReturning_sound "secret/app/" "read", by decide, by decide,
    by decide⟩

/-- C5 amended: the segment-widening check does report an escalation (the
query is satisfiable); a multi-segment witness such as `secret/app/x/y`
exists and rests on `+` excluding `/` while the trailing `*` includes it,
but a witness need not contain a `/` after `secret/app/`: the empty suffix
`secret/app/` is also a witness since `*` admits zero characters while `+`
requires at least one. -/
theorem segment_widening_escalation_amended :
    Satisfiable (escalationQuery segmentCurrentRules segmentNewRules)
    ∧ evalFm "secret/app/x/y" "read"
        (escalationQuery segmentCurrentRules segmentNewRules) = true
    ∧ slashAfter "secret/app/" "secret/app/x/y" = true
    ∧ evalRE (buildRegexFromPath "secret/app/+") "secret/app/x/y" = false
    ∧ evalRE (buildRegexFromPath "secret/app/*") "secret/app/x/y" = true
    ∧ evalFm "secret/app/" "read"
        (escalationQuery segmentCurrentRules segmentNewRules) = true
    ∧ evalRE (buildRegexFromPath "secret/app/+") "secret/app/" = false
    ∧ evalRE (buildRegexFromPath "secret/app/*") "secret/app/" = true :=
  ⟨⟨"secret/app/x/y", "read", by decide⟩, by decide, by decide, by decide,
    by decide, by decide, by decide, by decide⟩

/-- Counterexample to C6 as stated: on a request the spec classifies as an
input error (a rule with an empty capability list) the checker raises no
`InvalidPattern` — no such outcome exists — but compiles the degenerate
formula `⊥ ∧ ¬⊥`, hands it to the solver, and returns whatever verdict the
solver gives: with an unsat-answering oracle the ordinary no-escalation
record, with an affirming oracle an escalation record carrying the oracle's
model. -/
theorem invalid_input_reaches_solver_counterexample :
    checkPrivilegeEscalation solverUnsat emptyCapsRules emptyCapsRules
      = ⟨false, none, none, Fm.andF Fm.fls (Fm.notF Fm.fls),
          Fm.andF Fm.fls (Fm.notF Fm.fls)⟩
    ∧ (checkPrivilegeEscalation solverAffirm emptyCapsRules emptyCapsRules).result
        = true
    ∧ (checkPrivilegeEscalation solverAffirm emptyCapsRules emptyCapsRules).path
        = some "m" := by
  exact ⟨by decide, by decide, by decide⟩

/-- C6 amended: the checker performs no input validation and has no
`InvalidPattern` outcome.  A rule with an empty capability list is silently
compiled to the false capability match.  For every request whose patterns
all compile to a regex — every pattern nonempty, the last two conjuncts
show the empty pattern is the only exception — the solver is invoked and
the outcome is the plain image of its verdict.  An empty pattern is not
rejected either: `buildRegexFromPath` yields no regex (JavaScript
`undefined`), which in the source throws at the Z3 boundary before
`solver_check`; the `isSome` hypotheses of the first conjunct delimit the
claim to the inputs on which the model's total `evalRE` is faithful. -/
theorem no_input_validation_amended :
    (∀ (S : SolverOracle) (cur new : Rules),
      (∀ p ∈ allPaths cur, (buildRegexFromPath p).isSome = true) →
      (∀ p ∈ allPaths new, (buildRegexFromPath p).isSome = true) →
      checkPrivilegeEscalation S cur new
        = (match S.check (escalationQuery cur new) with
           | Lbool.ltrue =>
               ⟨true, some (S.modelPath (escalationQuery cur new)),
                 some (S.modelCap (escalationQuery cur new)),
                 buildPolicyMatch cur, buildPolicyMatch new⟩
           | _ => ⟨false, none, none, buildPolicyMatch cur,
               buildPolicyMatch new⟩))
    ∧ buildCapabilitiesMatch [] = Fm.fls
    ∧ buildPolicyMatch emptyCapsRules = Fm.andF Fm.fls (Fm.notF Fm.fls)
    ∧ buildRegexFromPath "" = none
    ∧ (∀ p : String, p ≠ "" → (buildRegexFromPath p).isSome = true) :=
  ⟨fun S cur new _ _ => check_eq_match S cur new, rfl, by decide, rfl,
    fun _ hp => buildRegexFromPath_isSome hp⟩

/-- C7: the comparator negates under argument swap (also through the
infinite rule-1 values), is zero on equal patterns, its negative-sign
relation is transitive, and it is nonzero on distinct patterns — a strict
total order on distinct patterns. -/
theorem comparePathPriority_strict_total_order (p q r : String) :
    comparePathPriority p q = (comparePathPriority q p).neg
    ∧ comparePathPriority p p = ENum.int 0
    ∧ ((comparePathPriority p q).sign < 0 → (comparePathPriority q r).sign < 0 →
        (comparePathPriority p r).sign < 0)
    ∧ (p ≠ q → (comparePathPriority p q).sign ≠ 0) := by
  refine ⟨comparePathPriority_swap p q, comparePathPriority_self p, ?_, ?_⟩
  · intro h1 h2
    exact (comparePathPriority_sign_neg_iff p r).mpr
      (priLt_trans p q r ((comparePathPriority_sign_neg_iff p q).mp h1)
        ((comparePathPriority_sign_neg_iff q r).mp h2))
  · intro hne h0
    exact hne ((comparePathPriority_sign_zero_iff p q).mp h0)

/-- Counterexample to C8 as stated: two insertion orders of the same
two-rule deny mapping build different formulas — the deny disjunction
follows map insertion order, not the priority order. -/
theorem deny_order_changes_formula_counterexample :
    denyOrderA.Perm denyOrderB
    ∧ (denyOrderA.map Prod.fst).Nodup
    ∧ buildPolicyMatch denyOrderA ≠ buildPolicyMatch denyOrderB :=
  ⟨List.Perm.swap ("b", ["deny"]) ("a", ["deny"]) [], by decide, by decide⟩

/-- C8 amended: for two insertion orders of the same mapping (with unique
keys), the allow cascade and its sorted path list are identical — the total
priority order stabilizes them — and the full formulas are logically
equivalent at every assignment; but the deny disjunction follows insertion
order, so the formula as an AST may differ. -/
theorem formula_insertion_order_amended (l₁ l₂ : Rules)
    (hp : l₁.Perm l₂) (hn : (l₁.map Prod.fst).Nodup) :
    isAllowed l₁ = isAllowed l₂
    ∧ sortedAllowPaths l₁ = sortedAllowPaths l₂
    ∧ ∀ path cap, evalFm path cap (buildPolicyMatch l₁)
        = evalFm path cap (buildPolicyMatch l₂) :=
  ⟨isAllowed_eq_of_perm hp hn, sortedAllowPaths_eq_of_perm hp hn,
    fun path cap => evalFm_buildPolicyMatch_of_perm hp hn path cap⟩

/-- Witness for the amended C8: the two insertion orders of a two-rule
allow mapping yield the same allow cascade and agree at a concrete
assignment. -/
theorem formula_insertion_order_amended_witness :
    isAllowed allowOrderA = isAllowed allowOrderB
    ∧ evalFm "x" "read" (buildPolicyMatch allowOrderA)
        = evalFm "x" "read" (buildPolicyMatch allowOrderB) := by
  have h := formula_insertion_order_amended allowOrderA allowOrderB
    (List.Perm.swap ("y", ["write"]) ("x", ["read"]) []) (by decide)
  exact ⟨h.1, h.2.2 "x" "read"⟩

/-- C9: the first tie-breaker's wildcard position is the least index of any
`+` or any `*` anywhere in the pattern; an interior `*`, which the pattern
syntax compiles as a literal character, still counts: `a*b` compiles to the
literal regex `a*b` yet is ranked with a wildcard at index 1, exactly like
`a+b`, and below the wildcard-free `axb`. -/
theorem interior_star_counted_as_wildcard :
    (∀ p : String, firstWildcard p
        = p.data.findIdx? (fun c => decide (c = '+' ∨ c = '*')))
    ∧ firstWildcard "a*b" = some 1
    ∧ splitTokens [] "a*b".data = [Tok.lit ['a', '*', 'b']]
    ∧ buildRegexFromPath "a*b" = some (RE.str ['a', '*', 'b'])
    ∧ firstWildcard "a*b" = firstWildcard "a+b"
    ∧ (comparePathPriority "a*b" "axb").sign < 0
    ∧ firstWildcard "axb" = none := by
  refine ⟨?_, by decide, by decide, by decide, by decide, by decide, by decide⟩
  intro p
  unfold firstWildcard jsIndexOf
  rw [minIdx_findIdx?]
  congr 1
  funext a
  rw [Bool.decide_or]

/-- C10: a rule with an empty capability list is excluded from both the
deny disjunction and the allow cascade: the built formula equals the one
built for the same policy with that rule removed — silently ignored, not an
error and not a deny. -/
theorem empty_caps_rule_ignored (l₁ l₂ : Rules) (p : String)
    (hp1 : p ∉ l₁.map Prod.fst) (hp2 : p ∉ l₂.map Prod.fst) :
    buildPolicyMatch (l₁ ++ (p, ([] : List String)) :: l₂)
      = buildPolicyMatch (l₁ ++ l₂) :=
  buildPolicyMatch_drop_empty hp1 hp2

/-- Witness for C10: appending an empty-capability rule to a one-rule
policy leaves the formula unchanged. -/
theorem empty_caps_rule_ignored_witness :
    buildPolicyMatch [("a", ["read"]), ("b", ([] : List String))]
      = buildPolicyMatch [("a", ["read"])] := by
  have h := empty_caps_rule_ignored [("a", ["read"])] [] "b"
    (by decide) (by decide)
  exact h

end PolicyCheck
